import Mathlib

/-!
Shallow embedding of `src/main.py` (GitLinesCounter): the commit record
parser `get_commit_stats`, the aggregation loop `count_lines_in_repo`, and
the start-date resolution of `main`.  External `git` invocations are
abstracted as functional parameters (fetch / runGit); their output shape,
where a claim needs it, is modelled from the spec.
-/

set_option autoImplicit false

namespace GitLines

instance {ε α : Type} [DecidableEq ε] [DecidableEq α] : DecidableEq (Except ε α) := fun x y =>
  match x, y with
  | .error e, .error f =>
    if h : e = f then isTrue (congrArg Except.error h)
    else isFalse (fun hh => h (Except.error.inj hh))
  | .error _, .ok _ => isFalse (fun hh => Except.noConfusion hh)
  | .ok _, .error _ => isFalse (fun hh => Except.noConfusion hh)
  | .ok a, .ok b =>
    if h : a = b then isTrue (congrArg Except.ok h)
    else isFalse (fun hh => h (Except.ok.inj hh))

/-- Python `re` character class `\d` on ASCII input (`main.py` line 32-33). -/
def isDigitC (c : Char) : Bool := c.isDigit

/-- Python `re` character class `\s` on ASCII input (`main.py` line 32-33). -/
def isSpaceC (c : Char) : Bool :=
  c = ' ' || c = '\t' || c = '\n' || c = '\r' || c = '\x0b' || c = '\x0c'

/-- Python `int` applied to a non-empty string of decimal digits. -/
def digitsToNat (ds : List Char) : Nat :=
  ds.foldl (fun acc c => acc * 10 + (c.toNat - 48)) 0

/-- Python `str.split(sep)` for a one-character separator: keeps empty
pieces, never returns an empty list. -/
def splitOnChar (sep : Char) : List Char → List (List Char)
  | [] => [[]]
  | c :: cs =>
    let r := splitOnChar sep cs
    if c = sep then [] :: r
    else
      match r with
      | [] => [[c]]
      | g :: gs => (c :: g) :: gs

/-- One attempt of the regex `(\d+)\s+<kw>` anchored at the start of `cs`:
a maximal run of digits, then at least one whitespace character, then the
literal keyword.  Returns the captured integer and the text after the
match.  (`\s+` backtracking cannot help because the keyword starts with a
non-whitespace character, and `\d+` backtracking cannot help because a
shorter digit run is followed by a digit; so maximal munch is exact.) -/
def matchAt (kw : List Char) (cs : List Char) : Option (Nat × List Char) :=
  let ds := cs.takeWhile isDigitC
  let r1 := cs.dropWhile isDigitC
  if ds.isEmpty then none
  else
    let ws := r1.takeWhile isSpaceC
    let r2 := r1.dropWhile isSpaceC
    if ws.isEmpty then none
    else if kw.isPrefixOf r2 then some (digitsToNat ds, r2.drop kw.length)
    else none

/-- `re.findall` of `(\d+)\s+<kw>` with the captured groups summed, written
with explicit fuel so that it is structurally recursive.  A successful
match always consumes at least one character, so fuel equal to the length
of the text never runs out. -/
def findallAux (kw : List Char) : Nat → List Char → Nat
  | 0, _ => 0
  | _, [] => 0
  | fuel + 1, c :: cs =>
    match matchAt kw (c :: cs) with
    | some (v, rest) => v + findallAux kw fuel rest
    | none => findallAux kw fuel cs

/-- `sum(int(m) for m in re.findall(pattern, text))` for the pattern
`(\d+)\s+<kw>` (`main.py` lines 35-36). -/
def findallSum (kw : List Char) (cs : List Char) : Nat :=
  findallAux kw cs.length cs

/-- The literal part of `insertion_pattern` (`main.py` line 32). -/
def insertionKw : List Char := "insertion".toList

/-- The literal part of `deletion_pattern` (`main.py` line 33). -/
def deletionKw : List Char := "deletion".toList

/-- The `CommitStats` class of `main.py` lines 9-16. -/
structure CommitStats where
  hash : String
  author : String
  date : String
  message : String
  insertions : Nat
  deletions : Nat
deriving DecidableEq, Repr

/-- The information content of the `ValueError` Python raises when tuple
unpacking `hash, author, date, message = first_line.split('|')` meets a
field list whose length is not 4 (`main.py` line 29): the expected count
and the actual count, and nothing else. -/
structure UnpackError where
  expected : Nat
  got : Nat
deriving DecidableEq, Repr

/-- The header-unpacking step of `get_commit_stats`: succeed exactly when
the first line has exactly 4 pipe-delimited fields. -/
def parseFields (stdout : String) (fields : List (List Char)) :
    Except UnpackError CommitStats :=
  match fields with
  | [h, a, d, m] =>
    .ok ⟨⟨h⟩, ⟨a⟩, ⟨d⟩, ⟨m⟩,
      findallSum insertionKw stdout.toList, findallSum deletionKw stdout.toList⟩
  | _ => .error ⟨4, fields.length⟩

/-- `get_commit_stats` of `main.py` lines 18-38, as a function of the text
the spawned `git show` wrote to stdout: take the first `\n`-separated line,
split it on `|`, unpack exactly 4 fields (raising `ValueError` otherwise),
and sum every regex match of the insertion/deletion patterns over the
whole stdout text. -/
def get_commit_stats (stdout : String) : Except UnpackError CommitStats :=
  parseFields stdout (splitOnChar '|' ((splitOnChar '\n' stdout.toList).headD []))

/-- One value of the inner dicts of `stats_by_author`
(`main.py` line 55): `defaultdict(lambda: ...)` default is all zeroes. -/
structure AuthorTotals where
  insertions : Nat
  deletions : Nat
  commits : Nat
deriving DecidableEq, Repr

/-- Net effect of `main.py` lines 67-69 on the `stats_by_author` dict:
update the author's entry in place when present (Python dicts keep the
key's position), otherwise append a fresh entry at the end (defaultdict
inserts on first access). -/
def bumpAuthor (a : String) (i d : Nat) :
    List (String × AuthorTotals) → List (String × AuthorTotals)
  | [] => [(a, ⟨i, d, 1⟩)]
  | (k, t) :: rest =>
    if k = a then (k, ⟨t.insertions + i, t.deletions + d, t.commits + 1⟩) :: rest
    else (k, t) :: bumpAuthor a i d rest

/-- `commit_details[commit_hash] = stats` (`main.py` line 65): overwrite in
place when the key is present, otherwise append at the end. -/
def setById (h : String) (s : CommitStats) :
    List (String × CommitStats) → List (String × CommitStats)
  | [] => [(h, s)]
  | (k, v) :: rest =>
    if k = h then (k, s) :: rest else (k, v) :: setById h s rest

/-- The two dicts built by `count_lines_in_repo` (`main.py` lines 55-56),
as insertion-ordered association lists, which is the observable content of
Python dicts. -/
structure AggState where
  by_author : List (String × AuthorTotals)
  by_id : List (String × CommitStats)
deriving DecidableEq, Repr

/-- The loop of `main.py` lines 59-69.  `fetch` abstracts the stdout of
`git show` for a given commit hash.  The first component of the result is
the sequence of progress writes `(idx, total)` (`main.py` line 61), which
the source emits at the top of the loop body, before fetching and parsing
the commit; the second is either the final pair of dicts or the
`ValueError` that aborted the loop, in which case the partially built
dicts are discarded exactly as in the source. -/
def runAgg (fetch : String → String) (total : Nat) :
    List String → Nat → AggState → List (Nat × Nat) × Except UnpackError AggState
  | [], _, st => ([], .ok st)
  | hsh :: rest, idx, st =>
    match get_commit_stats (fetch hsh) with
    | .error e => ([(idx, total)], .error e)
    | .ok s =>
      let st' : AggState :=
        ⟨bumpAuthor s.author s.insertions s.deletions st.by_author,
         setById hsh s st.by_id⟩
      let next := runAgg fetch total rest (idx + 1) st'
      ((idx, total) :: next.1, next.2)

/-- `count_lines_in_repo` of `main.py` lines 40-72, parameterised over the
listed commit-id sequence (the `splitlines()` of `git log`'s stdout) and
the per-commit fetched text.  `total_commits` is the length of the id
sequence and the loop index is 1-based (`enumerate(..., 1)`). -/
def count_lines_in_repo (fetch : String → String) (ids : List String) :
    List (Nat × Nat) × Except UnpackError AggState :=
  runAgg fetch ids.length ids 1 ⟨[], []⟩

/-- First-occurrence lookup in an association list; the observable content
of Python `d[k]` read access. -/
def lookupT {β : Type} (a : String) : List (String × β) → Option β
  | [] => none
  | (k, t) :: rest => if a = k then some t else lookupT a rest

/-- The keys of an association list in order; the observable content of
Python dict iteration order. -/
def keysOf {β : Type} (l : List (String × β)) : List String :=
  l.map Prod.fst

/-- Sum of `f` over the records of `l` whose author is `a`. -/
def tallyOf (f : CommitStats → Nat) (a : String) (l : List (String × CommitStats)) : Nat :=
  (l.map fun q => if q.2.author = a then f q.2 else 0).sum

/-- Sum of insertions over the records with author `a`. -/
def tallyIns (a : String) (l : List (String × CommitStats)) : Nat :=
  tallyOf CommitStats.insertions a l

/-- Sum of deletions over the records with author `a`. -/
def tallyDel (a : String) (l : List (String × CommitStats)) : Nat :=
  tallyOf CommitStats.deletions a l

/-- Number of records with author `a`. -/
def tallyCom (a : String) (l : List (String × CommitStats)) : Nat :=
  tallyOf (fun _ => 1) a l

/-- Fold step of first-seen order: keep the list unchanged when the author
was already seen, otherwise append it. -/
def seenInsert (ks : List String) (a : String) : List String :=
  if a ∈ ks then ks else ks ++ [a]

/-- The first-seen order of a list of author names, as the spec's
`by_author` key-order requirement words it. -/
def firstSeen (l : List String) : List String :=
  l.foldl seenInsert []

/-- The author of each commit id's parsed record, in id-sequence order,
skipping ids whose text does not parse (on a successful aggregation run
nothing is skipped). -/
def authorSeq (fetch : String → String) (ids : List String) : List String :=
  ids.filterMap fun h => ((get_commit_stats (fetch h)).toOption).map CommitStats.author

/-- Gregorian leap year, as used by Python `datetime`. -/
def isLeap (y : Nat) : Bool := (y % 4 == 0 && y % 100 != 0) || y % 400 == 0

/-- Days in a month of the proleptic Gregorian calendar. -/
def daysInMonth (y m : Nat) : Nat :=
  if m = 2 then (if isLeap y then 29 else 28)
  else if m = 4 ∨ m = 6 ∨ m = 9 ∨ m = 11 then 30
  else 31

/-- A calendar date. -/
structure Date where
  year : Nat
  month : Nat
  day : Nat
deriving DecidableEq, Repr

/-- Modelled from the spec: the fixed, documented `YYYY-MM-DD` calendar
date format (`datetime.strptime(s, "%Y-%m-%d")` on zero-padded input):
exactly three dash-separated all-digit components of widths 4, 2, 2
denoting a valid calendar date. -/
def parseYMD (s : String) : Option Date :=
  match splitOnChar '-' s.toList with
  | [ys, ms, ds] =>
    if ys.length = 4 ∧ ms.length = 2 ∧ ds.length = 2 ∧
        ys.all isDigitC = true ∧ ms.all isDigitC = true ∧ ds.all isDigitC = true then
      let y := digitsToNat ys
      let m := digitsToNat ms
      let d := digitsToNat ds
      if 1 ≤ m ∧ m ≤ 12 ∧ 1 ≤ d ∧ d ≤ daysInMonth y m then some ⟨y, m, d⟩
      else none
    else none
  | _ => none

/-- The fallback query of `main.py` lines 90-95: full-history, oldest
first, dates only, and no `--author` argument. -/
def startDateGitCmd : List String :=
  ["git", "log", "--reverse", "--pretty=format:%ad", "--date=short"]

/-- The listing query of `main.py` lines 44-46 for the main analysis:
`--author` is appended exactly when an author filter is requested. -/
def listCommitsCmd (startS endS : String) (authorF : Option String) : List String :=
  ["git", "log", "--since", startS, "--until", endS, "--pretty=format:%H"] ++
    (match authorF with
     | some a => ["--author", a]
     | none => [])

/-- The start-date resolution of `main.py` lines 87-96: an explicit
`--start-date` is parsed directly; otherwise the first line of the
fallback query's stdout is parsed.  `authorArg` is in scope in `main` but
unused by this branch, exactly as in the source. -/
def resolveStartDate (startArg : Option String) (authorArg : Option String)
    (runGit : List String → String) : Option Date :=
  match startArg with
  | some s => parseYMD s
  | none => parseYMD ⟨(splitOnChar '\n' (runGit startDateGitCmd).toList).headD []⟩

/-- One commit of the versioned history store: its short-format date and
its author name. -/
structure HistCommit where
  date : String
  author : String
deriving DecidableEq, Repr

/-- Join text lines with a single newline separator and no trailing
newline, the layout of `--pretty=format:` output. -/
def joinLines : List (List Char) → List Char
  | [] => []
  | l :: ls =>
    match ls with
    | [] => l
    | _ :: _ => l ++ '\n' :: joinLines ls

/-- Modelled from the spec: the stdout of
`git log --reverse --pretty=format:%ad --date=short` over a history store
given as a chronologically ordered (oldest first) list of commits — the
dates of ALL commits, oldest first, one per line, with no author
filtering applied. -/
def gitReverseDateOutput (repo : List HistCommit) : String :=
  ⟨joinLines (repo.map fun c => c.date.toList)⟩

/-! ### Basic lemmas about the parser -/

theorem parseFields_ok_iff (stdout : String) (fields : List (List Char)) :
    (parseFields stdout fields).isOk = true ↔ fields.length = 4 := by
  rcases fields with _ | ⟨a, _ | ⟨b, _ | ⟨c, _ | ⟨d, _ | ⟨e, rest⟩⟩⟩⟩⟩ <;>
    simp [parseFields, Except.isOk, Except.toBool]

theorem parseFields_error_of_ne (stdout : String) (fields : List (List Char))
    (h : fields.length ≠ 4) :
    parseFields stdout fields = Except.error ⟨4, fields.length⟩ := by
  rcases fields with _ | ⟨a, _ | ⟨b, _ | ⟨c, _ | ⟨d, _ | ⟨e, rest⟩⟩⟩⟩⟩ <;>
    first
      | rfl
      | exact absurd rfl h

/-- The field list `get_commit_stats` unpacks, as a function of the raw
stdout text. -/
def headerFields (stdout : String) : List (List Char) :=
  splitOnChar '|' ((splitOnChar '\n' stdout.toList).headD [])

theorem get_commit_stats_eq_parseFields (stdout : String) :
    get_commit_stats stdout = parseFields stdout (headerFields stdout) := rfl

theorem get_commit_stats_error_of_ne (stdout : String)
    (h : (headerFields stdout).length ≠ 4) :
    get_commit_stats stdout = Except.error ⟨4, (headerFields stdout).length⟩ :=
  parseFields_error_of_ne stdout (headerFields stdout) h

/-! ### Claim theorems: parser behaviour -/

/-- C4 (counterexample): the parser accepts a header whose date field is
not a `YYYY-MM-DD` calendar date — no `MalformedCommitText`-style failure
arises from the date field. -/
theorem date_field_not_validated :
    parseYMD "not-a-date" = none ∧
    get_commit_stats "abc123|alice|not-a-date|fix\n 1 file changed, 2 insertions(+)\n" =
      Except.ok ⟨"abc123", "alice", "not-a-date", "fix", 2, 0⟩ := by
  decide

/-- C4 (amended): the parser performs no date validation at all — parsing
a raw commit text succeeds exactly when its first line splits into exactly
4 pipe-delimited fields, regardless of the date field's content. -/
theorem parse_ok_iff_four_fields (stdout : String) :
    (get_commit_stats stdout).isOk = true ↔ (headerFields stdout).length = 4 :=
  parseFields_ok_iff stdout (headerFields stdout)

/-- C5: insertion and deletion counts sum every occurrence of the
`<integer> insertion` / `<integer> deletion` pattern (singular and plural
alike): a text with the three occurrences `3 insertions`, `1 insertion`,
`5 insertions` yields insertions = 9, and its `2 deletions`, `1 deletion`
yield deletions = 3. -/
theorem multi_file_summation :
    get_commit_stats
        "deadbeef|alice|2024-01-01|refactor\n 3 insertions(+), 2 deletions(-)\n 1 insertion(+), 1 deletion(-)\n 5 insertions(+)\n" =
      Except.ok ⟨"deadbeef", "alice", "2024-01-01", "refactor", 9, 3⟩ := by
  decide

/-- C9: the pattern scan covers the whole raw text including the header
line — a message `revert 5 insertions` contributes its 5 to the returned
insertion count on top of the 2 found in the summary body. -/
theorem header_line_is_scanned :
    get_commit_stats
        ("cafe42|bob|2024-02-02|revert 5 insertions" ++ "\n" ++
          " 1 file changed, 2 insertions(+), 1 deletion(-)") =
      Except.ok ⟨"cafe42", "bob", "2024-02-02", "revert 5 insertions", 7, 1⟩ ∧
    findallSum insertionKw ("cafe42|bob|2024-02-02|revert 5 insertions").toList = 5 ∧
    findallSum insertionKw (" 1 file changed, 2 insertions(+), 1 deletion(-)").toList = 2 := by
  decide

/-- C2 (counterexample): two runs that fail on different offending commit
ids surface the very same error value — the unpacking error carries field
counts only, so the caller cannot recover the offending id from it. -/
theorem error_lacks_offending_id :
    count_lines_in_repo (fun _ => "no pipes here") ["c1"] =
      ([(1, 1)], Except.error ⟨4, 1⟩) ∧
    count_lines_in_repo (fun _ => "no pipes here") ["c2"] =
      ([(1, 1)], Except.error ⟨4, 1⟩) ∧
    "c1" ≠ "c2" := by
  decide

/-- C3 (counterexample): the progress write happens before the commit is
fetched and parsed — when the sole commit's text is malformed, the
progress event (1, 1) is emitted even though no commit is ever
successfully processed. -/
theorem progress_emitted_for_failing_commit :
    count_lines_in_repo (fun _ => "oops") ["c9"] = ([(1, 1)], Except.error ⟨4, 1⟩) := by
  decide

/-! ### Unfolding equations for the aggregation loop -/

theorem count_lines_def (fetch : String → String) (ids : List String) :
    count_lines_in_repo fetch ids = runAgg fetch ids.length ids 1 ⟨[], []⟩ := rfl

theorem runAgg_nil (fetch : String → String) (total idx : Nat) (st : AggState) :
    runAgg fetch total [] idx st = ([], Except.ok st) := rfl

theorem runAgg_cons_error (fetch : String → String) (total idx : Nat) (st : AggState)
    (hsh : String) (rest : List String) (e : UnpackError)
    (h : get_commit_stats (fetch hsh) = Except.error e) :
    runAgg fetch total (hsh :: rest) idx st = ([(idx, total)], Except.error e) := by
  simp [runAgg, h]

theorem runAgg_cons_ok (fetch : String → String) (total idx : Nat) (st : AggState)
    (hsh : String) (rest : List String) (s : CommitStats)
    (h : get_commit_stats (fetch hsh) = Except.ok s) :
    runAgg fetch total (hsh :: rest) idx st =
      ((idx, total) ::
          (runAgg fetch total rest (idx + 1)
            ⟨bumpAuthor s.author s.insertions s.deletions st.by_author,
             setById hsh s st.by_id⟩).1,
        (runAgg fetch total rest (idx + 1)
          ⟨bumpAuthor s.author s.insertions s.deletions st.by_author,
           setById hsh s st.by_id⟩).2) := by
  simp [runAgg, h]

/-- A run that finishes with a state parsed every listed commit. -/
theorem runAgg_ok_all (fetch : String → String) (total : Nat) :
    ∀ (rest : List String) (idx : Nat) (st : AggState) (evs : List (Nat × Nat)) (st' : AggState),
      runAgg fetch total rest idx st = (evs, Except.ok st') →
      ∀ h ∈ rest, (get_commit_stats (fetch h)).isOk = true := by
  intro rest
  induction rest with
  | nil =>
    intro idx st evs st' _ h hm
    exact absurd hm (List.not_mem_nil h)
  | cons hsh rest ih =>
    intro idx st evs st' hrun h hm
    cases hget : get_commit_stats (fetch hsh) with
    | error e =>
      rw [runAgg_cons_error fetch total idx st hsh rest e hget] at hrun
      have h2 : (Except.error e : Except UnpackError AggState) = Except.ok st' := congrArg Prod.snd hrun
      exact Except.noConfusion h2
    | ok s =>
      rcases hnext : runAgg fetch total rest (idx + 1)
          ⟨bumpAuthor s.author s.insertions s.deletions st.by_author,
           setById hsh s st.by_id⟩ with ⟨evs2, r2⟩
      rw [runAgg_cons_ok fetch total idx st hsh rest s hget, hnext] at hrun
      have h2 : r2 = Except.ok st' := congrArg Prod.snd hrun
      rcases List.mem_cons.mp hm with rfl | hm'
      · simp [hget, Except.isOk, Except.toBool]
      · exact ih (idx + 1) _ evs2 st' (h2 ▸ hnext) h hm'

/-- The error a run surfaces is the parse error of one of the listed
commits' fetched texts. -/
theorem runAgg_error_src (fetch : String → String) (total : Nat) :
    ∀ (rest : List String) (idx : Nat) (st : AggState) (evs : List (Nat × Nat)) (e : UnpackError),
      runAgg fetch total rest idx st = (evs, Except.error e) →
      ∃ h ∈ rest, get_commit_stats (fetch h) = Except.error e := by
  intro rest
  induction rest with
  | nil =>
    intro idx st evs e hrun
    have h2 : (Except.ok st : Except UnpackError AggState) = Except.error e := congrArg Prod.snd hrun
    exact Except.noConfusion h2
  | cons hsh rest ih =>
    intro idx st evs e hrun
    cases hget : get_commit_stats (fetch hsh) with
    | error e0 =>
      rw [runAgg_cons_error fetch total idx st hsh rest e0 hget] at hrun
      have h2 : (Except.error e0 : Except UnpackError AggState) = Except.error e := congrArg Prod.snd hrun
      have he : e0 = e := Except.error.inj h2
      exact ⟨hsh, List.mem_cons_self _ _, he ▸ hget⟩
    | ok s =>
      rcases hnext : runAgg fetch total rest (idx + 1)
          ⟨bumpAuthor s.author s.insertions s.deletions st.by_author,
           setById hsh s st.by_id⟩ with ⟨evs2, r2⟩
      rw [runAgg_cons_ok fetch total idx st hsh rest s hget, hnext] at hrun
      have h2 : r2 = Except.error e := congrArg Prod.snd hrun
      obtain ⟨h, hm, hh⟩ := ih (idx + 1) _ evs2 e (h2 ▸ hnext)
      exact ⟨h, List.mem_cons_of_mem _ hm, hh⟩

/-- C6: a raw text whose first line has fewer than 4 pipe-delimited fields
makes the parse fail with the unpacking error, and an aggregation whose id
sequence contains such a commit returns no result state at all — in
particular no partial totals for that commit. -/
theorem malformed_header_aborts (fetch : String → String) (ids : List String) (hsh : String)
    (hmem : hsh ∈ ids)
    (hlt : (headerFields (fetch hsh)).length < 4) :
    get_commit_stats (fetch hsh) = Except.error ⟨4, (headerFields (fetch hsh)).length⟩ ∧
    (count_lines_in_repo fetch ids).2.isOk = false := by
  have herr := get_commit_stats_error_of_ne (fetch hsh) (Nat.ne_of_lt hlt)
  refine ⟨herr, ?_⟩
  rcases hrun : count_lines_in_repo fetch ids with ⟨evs, r⟩
  cases r with
  | ok st =>
    rw [count_lines_def] at hrun
    have hok := runAgg_ok_all fetch ids.length ids 1 ⟨[], []⟩ evs st hrun hsh hmem
    rw [herr] at hok
    simp [Except.isOk, Except.toBool] at hok
  | error e => simp [Except.isOk, Except.toBool]

/-- C2 (amended): a parse failure on any listed commit makes the whole
aggregation return an error instead of a result state — no partial
`AggregationResult` reaches the caller — and the surfaced error value is
exactly the unpacking error of one of the listed commits' fetched texts
(it records field counts, not the offending id). -/
theorem single_failure_aborts_whole (fetch : String → String) (ids : List String)
    (hbad : ∃ hsh ∈ ids, (get_commit_stats (fetch hsh)).isOk = false) :
    (count_lines_in_repo fetch ids).2.isOk = false ∧
    ∀ evs e, count_lines_in_repo fetch ids = (evs, Except.error e) →
      ∃ hsh ∈ ids, get_commit_stats (fetch hsh) = Except.error e := by
  constructor
  · obtain ⟨hsh, hmem, hisok⟩ := hbad
    rcases hrun : count_lines_in_repo fetch ids with ⟨evs, r⟩
    cases r with
    | ok st =>
      rw [count_lines_def] at hrun
      have hok := runAgg_ok_all fetch ids.length ids 1 ⟨[], []⟩ evs st hrun hsh hmem
      rw [hok] at hisok
      exact absurd hisok (by simp)
    | error e => simp [Except.isOk, Except.toBool]
  · intro evs e hrun
    rw [count_lines_def] at hrun
    exact runAgg_error_src fetch ids.length ids 1 ⟨[], []⟩ evs e hrun

/-! ### Shape of the emitted progress events -/

theorem cons_range_map (idx total n : Nat) :
    (idx, total) :: ((List.range n).map fun i => (idx + 1 + i, total)) =
      (List.range (n + 1)).map fun i => (idx + i, total) := by
  rw [List.range_succ_eq_map, List.map_cons, List.map_map]
  have ht : (List.range n).map ((fun i => (idx + i, total)) ∘ Nat.succ) =
      (List.range n).map fun i => (idx + 1 + i, total) := by
    refine List.map_congr_left ?_
    intro a _
    simp only [Function.comp_apply]
    have hadd : idx + Nat.succ a = idx + 1 + a := by omega
    rw [hadd]
  rw [ht]
  simp

theorem runAgg_progress (fetch : String → String) (total : Nat) :
    ∀ (rest : List String) (idx : Nat) (st : AggState) (evs : List (Nat × Nat))
      (r : Except UnpackError AggState),
      runAgg fetch total rest idx st = (evs, r) →
      (r.isOk = true → evs = (List.range rest.length).map fun i => (idx + i, total)) ∧
      (r.isOk = false → ∃ k, k < rest.length ∧
        evs = (List.range (k + 1)).map fun i => (idx + i, total)) := by
  intro rest
  induction rest with
  | nil =>
    intro idx st evs r hrun
    rw [runAgg_nil] at hrun
    have h1 : ([] : List (Nat × Nat)) = evs := congrArg Prod.fst hrun
    have h2 : Except.ok st = r := congrArg Prod.snd hrun
    subst h1; subst h2
    constructor
    · intro _; simp
    · intro hko; simp [Except.isOk, Except.toBool] at hko
  | cons hsh rest ih =>
    intro idx st evs r hrun
    cases hget : get_commit_stats (fetch hsh) with
    | error e =>
      rw [runAgg_cons_error fetch total idx st hsh rest e hget] at hrun
      have h1 : [(idx, total)] = evs := congrArg Prod.fst hrun
      have h2 : (Except.error e : Except UnpackError AggState) = r := congrArg Prod.snd hrun
      subst h1; subst h2
      constructor
      · intro hok; simp [Except.isOk, Except.toBool] at hok
      · intro _
        refine ⟨0, by simp, ?_⟩
        simp [List.range_succ]
    | ok s =>
      rcases hnext : runAgg fetch total rest (idx + 1)
          ⟨bumpAuthor s.author s.insertions s.deletions st.by_author,
           setById hsh s st.by_id⟩ with ⟨evs2, r2⟩
      rw [runAgg_cons_ok fetch total idx st hsh rest s hget, hnext] at hrun
      have h1 : (idx, total) :: evs2 = evs := congrArg Prod.fst hrun
      have h2 : r2 = r := congrArg Prod.snd hrun
      subst h1; subst h2
      obtain ⟨hok, hko⟩ := ih (idx + 1) _ evs2 r2 hnext
      constructor
      · intro hr
        rw [hok hr, List.length_cons]
        exact cons_range_map idx total rest.length
      · intro hr
        obtain ⟨k, hk, hevs⟩ := hko hr
        refine ⟨k + 1, by simpa using Nat.succ_lt_succ hk, ?_⟩
        rw [hevs]
        exact cons_range_map idx total (k + 1)

/-- C3 (amended): the progress event `(index, total)` is emitted at the
top of each iteration, before the commit is fetched and parsed: on a
successful run the events are exactly `(1, total) … (total, total)` in
processing order, once per commit with 1-based index and
`total = ids.length`; on a failing run the events are `(1, total) …
(k+1, total)` where commit `k+1` is the one whose processing failed — its
progress event is emitted even though it is never processed. -/
theorem progress_before_each_commit (fetch : String → String) (ids : List String)
    (evs : List (Nat × Nat)) (r : Except UnpackError AggState)
    (hrun : count_lines_in_repo fetch ids = (evs, r)) :
    (r.isOk = true → evs = (List.range ids.length).map fun i => (i + 1, ids.length)) ∧
    (r.isOk = false → ∃ k, k < ids.length ∧
      evs = (List.range (k + 1)).map fun i => (i + 1, ids.length)) := by
  rw [count_lines_def] at hrun
  have h := runAgg_progress fetch ids.length ids 1 ⟨[], []⟩ evs r hrun
  have hswap : ∀ n : Nat, ((List.range n).map fun i => (1 + i, ids.length)) =
      (List.range n).map fun i => (i + 1, ids.length) := by
    intro n
    refine List.map_congr_left ?_
    intro a _
    congr 1
    omega
  obtain ⟨hok, hko⟩ := h
  constructor
  · intro hr; rw [hok hr, hswap]
  · intro hr
    obtain ⟨k, hk, hevs⟩ := hko hr
    exact ⟨k, hk, by rw [hevs, hswap]⟩

/-! ### Author key order and determinism -/

theorem bumpAuthor_keys (a : String) (i d : Nat) (m : List (String × AuthorTotals)) :
    keysOf (bumpAuthor a i d m) = seenInsert (keysOf m) a := by
  induction m with
  | nil => simp [bumpAuthor, keysOf, seenInsert]
  | cons p rest ih =>
    obtain ⟨k, t⟩ := p
    by_cases hk : k = a
    · subst hk
      simp [bumpAuthor, keysOf, seenInsert]
    · have hne : a ≠ k := fun h => hk h.symm
      simp only [bumpAuthor, if_neg hk, keysOf, List.map_cons]
      have ihk : List.map Prod.fst (bumpAuthor a i d rest) = seenInsert (keysOf rest) a := ih
      rw [ihk]
      simp only [seenInsert, keysOf, List.mem_cons, hne, false_or]
      by_cases hmem : a ∈ List.map Prod.fst rest
      · simp [hmem]
      · simp [hmem]

theorem runAgg_congr (f g : String → String) (total : Nat) :
    ∀ (rest : List String) (idx : Nat) (st : AggState),
      (∀ h ∈ rest, f h = g h) → runAgg f total rest idx st = runAgg g total rest idx st := by
  intro rest
  induction rest with
  | nil => intro idx st _; rfl
  | cons hsh rest ih =>
    intro idx st hag
    have h0 : f hsh = g hsh := hag hsh (List.mem_cons_self _ _)
    have hrest : ∀ h ∈ rest, f h = g h := fun h hm => hag h (List.mem_cons_of_mem _ hm)
    cases hget : get_commit_stats (g hsh) with
    | error e =>
      rw [runAgg_cons_error f total idx st hsh rest e (by rw [h0]; exact hget),
        runAgg_cons_error g total idx st hsh rest e hget]
    | ok s =>
      rw [runAgg_cons_ok f total idx st hsh rest s (by rw [h0]; exact hget),
        runAgg_cons_ok g total idx st hsh rest s hget, ih (idx + 1) _ hrest]

theorem runAgg_keys (fetch : String → String) (total : Nat) :
    ∀ (rest : List String) (idx : Nat) (st : AggState) (evs : List (Nat × Nat)) (st' : AggState),
      runAgg fetch total rest idx st = (evs, Except.ok st') →
      keysOf st'.by_author = (authorSeq fetch rest).foldl seenInsert (keysOf st.by_author) := by
  intro rest
  induction rest with
  | nil =>
    intro idx st evs st' hrun
    have h2 : Except.ok st = Except.ok st' := congrArg Prod.snd hrun
    have hst : st = st' := Except.ok.inj h2
    subst hst
    rfl
  | cons hsh rest ih =>
    intro idx st evs st' hrun
    cases hget : get_commit_stats (fetch hsh) with
    | error e =>
      rw [runAgg_cons_error fetch total idx st hsh rest e hget] at hrun
      have h2 : (Except.error e : Except UnpackError AggState) = Except.ok st' :=
        congrArg Prod.snd hrun
      exact Except.noConfusion h2
    | ok s =>
      rcases hnext : runAgg fetch total rest (idx + 1)
          ⟨bumpAuthor s.author s.insertions s.deletions st.by_author,
           setById hsh s st.by_id⟩ with ⟨evs2, r2⟩
      rw [runAgg_cons_ok fetch total idx st hsh rest s hget, hnext] at hrun
      have h2 : r2 = Except.ok st' := congrArg Prod.snd hrun
      have hk := ih (idx + 1) _ evs2 st' (h2 ▸ hnext)
      have hseq : authorSeq fetch (hsh :: rest) = s.author :: authorSeq fetch rest := by
        simp [authorSeq, hget, Except.toOption]
      rw [hseq, List.foldl_cons, ← bumpAuthor_keys]
      exact hk

/-- C8: aggregation is a pure function of the id sequence and the fetched
texts — two runs over the same ids with pointwise-equal fetched texts give
identical events and identical result (same totals, same order) — and on a
successful run the `by_author` key order is exactly the first-seen order
of the authors of the processed commit sequence. -/
theorem deterministic_and_first_seen_order (f g : String → String) (ids : List String)
    (hagree : ∀ h ∈ ids, f h = g h) :
    count_lines_in_repo f ids = count_lines_in_repo g ids ∧
    ∀ evs st, count_lines_in_repo f ids = (evs, Except.ok st) →
      keysOf st.by_author = firstSeen (authorSeq f ids) := by
  constructor
  · rw [count_lines_def, count_lines_def]
    exact runAgg_congr f g ids.length ids 1 ⟨[], []⟩ hagree
  · intro evs st hrun
    rw [count_lines_def] at hrun
    exact runAgg_keys f ids.length ids 1 ⟨[], []⟩ evs st hrun

/-! ### Sum consistency between `by_author` and `by_id` -/

/-- The totals entry after one fold step, as a function of the previous
entry (`defaultdict` default when absent). -/
def bumpTotals (i d : Nat) : Option AuthorTotals → AuthorTotals
  | some t => ⟨t.insertions + i, t.deletions + d, t.commits + 1⟩
  | none => ⟨i, d, 1⟩

theorem lookupT_bumpAuthor_self (a : String) (i d : Nat)
    (m : List (String × AuthorTotals)) :
    lookupT a (bumpAuthor a i d m) = some (bumpTotals i d (lookupT a m)) := by
  induction m with
  | nil => simp [bumpAuthor, lookupT, bumpTotals]
  | cons p rest ih =>
    obtain ⟨k, t⟩ := p
    by_cases hk : k = a
    · subst hk
      simp [bumpAuthor, lookupT, bumpTotals]
    · have hne : a ≠ k := fun h => hk h.symm
      simp [bumpAuthor, hk, lookupT, hne, ih]

theorem lookupT_bumpAuthor_ne (a b : String) (i d : Nat) (hba : b ≠ a)
    (m : List (String × AuthorTotals)) :
    lookupT b (bumpAuthor a i d m) = lookupT b m := by
  induction m with
  | nil => simp [bumpAuthor, lookupT, hba]
  | cons p rest ih =>
    obtain ⟨k, t⟩ := p
    by_cases hk : k = a
    · subst hk
      simp [bumpAuthor, lookupT, hba]
    · by_cases hbk : b = k
      · subst hbk
        simp [bumpAuthor, hk, lookupT]
      · simp [bumpAuthor, hk, lookupT, hbk, ih]

theorem setById_fresh (h : String) (s : CommitStats) (l : List (String × CommitStats))
    (hf : ∀ p ∈ l, p.1 ≠ h) : setById h s l = l ++ [(h, s)] := by
  induction l with
  | nil => rfl
  | cons p rest ih =>
    obtain ⟨k, v⟩ := p
    have hk : k ≠ h := hf (k, v) (List.mem_cons_self _ _)
    simp only [setById, if_neg hk, List.cons_append, List.cons.injEq, true_and]
    exact ih fun q hq => hf q (List.mem_cons_of_mem _ hq)

theorem tallyOf_append (f : CommitStats → Nat) (a : String)
    (l : List (String × CommitStats)) (h : String) (s : CommitStats) :
    tallyOf f a (l ++ [(h, s)]) =
      tallyOf f a l + (if s.author = a then f s else 0) := by
  simp [tallyOf, List.map_append, List.sum_append]

theorem tallyIns_append (a : String) (l : List (String × CommitStats))
    (h : String) (s : CommitStats) :
    tallyIns a (l ++ [(h, s)]) =
      tallyIns a l + (if s.author = a then s.insertions else 0) :=
  tallyOf_append CommitStats.insertions a l h s

theorem tallyDel_append (a : String) (l : List (String × CommitStats))
    (h : String) (s : CommitStats) :
    tallyDel a (l ++ [(h, s)]) =
      tallyDel a l + (if s.author = a then s.deletions else 0) :=
  tallyOf_append CommitStats.deletions a l h s

theorem tallyCom_append (a : String) (l : List (String × CommitStats))
    (h : String) (s : CommitStats) :
    tallyCom a (l ++ [(h, s)]) = tallyCom a l + (if s.author = a then 1 else 0) :=
  tallyOf_append (fun _ => 1) a l h s

theorem tallyCom_pos (a : String) (l : List (String × CommitStats))
    (p : String × CommitStats) (hp : p ∈ l) (ha : p.2.author = a) :
    0 < tallyCom a l := by
  have h1 : (1 : Nat) ∈ l.map fun q => if q.2.author = a then 1 else 0 := by
    refine List.mem_map.mpr ⟨p, hp, ?_⟩
    simp [ha]
  have hle := List.single_le_sum
    (l := l.map fun q => if q.2.author = a then (1 : Nat) else 0)
    (fun x _ => Nat.zero_le x) 1 h1
  have : tallyCom a l = (l.map fun q => if q.2.author = a then (1 : Nat) else 0).sum := rfl
  omega

/-- The invariant relating the running `by_author` totals to the records
stored in `by_id`. -/
def SumInv (ba : List (String × AuthorTotals)) (bi : List (String × CommitStats)) : Prop :=
  (∀ a t, lookupT a ba = some t →
      t.insertions = tallyIns a bi ∧ t.deletions = tallyDel a bi ∧
      t.commits = tallyCom a bi) ∧
  (∀ a, lookupT a ba = none →
      tallyIns a bi = 0 ∧ tallyDel a bi = 0 ∧ tallyCom a bi = 0)

theorem SumInv_step (ba : List (String × AuthorTotals)) (bi : List (String × CommitStats))
    (hsh : String) (s : CommitStats) (hinv : SumInv ba bi)
    (hfresh : ∀ p ∈ bi, p.1 ≠ hsh) :
    SumInv (bumpAuthor s.author s.insertions s.deletions ba) (setById hsh s bi) := by
  obtain ⟨hsome, hnone⟩ := hinv
  have hset : setById hsh s bi = bi ++ [(hsh, s)] := setById_fresh hsh s bi hfresh
  rw [hset]
  constructor
  · intro a t hla
    by_cases ha : a = s.author
    · rw [ha, lookupT_bumpAuthor_self] at hla
      have ht := Option.some.inj hla
      rw [← ht, ha]
      cases hcase : lookupT s.author ba with
      | some t0 =>
        obtain ⟨hi, hd, hc⟩ := hsome s.author t0 hcase
        simp [bumpTotals, tallyIns_append, tallyDel_append, tallyCom_append, hi, hd, hc]
      | none =>
        obtain ⟨hi0, hd0, hc0⟩ := hnone s.author hcase
        simp [bumpTotals, tallyIns_append, tallyDel_append, tallyCom_append, hi0, hd0, hc0]
    · have hsa : ¬ s.author = a := fun h => ha h.symm
      rw [lookupT_bumpAuthor_ne s.author a s.insertions s.deletions ha] at hla
      obtain ⟨hi, hd, hc⟩ := hsome a t hla
      simp [tallyIns_append, tallyDel_append, tallyCom_append, hsa, hi, hd, hc]
  · intro a hla
    by_cases ha : a = s.author
    · rw [ha, lookupT_bumpAuthor_self] at hla
      exact Option.noConfusion hla
    · have hsa : ¬ s.author = a := fun h => ha h.symm
      rw [lookupT_bumpAuthor_ne s.author a s.insertions s.deletions ha] at hla
      obtain ⟨hi0, hd0, hc0⟩ := hnone a hla
      simp [tallyIns_append, tallyDel_append, tallyCom_append, hsa, hi0, hd0, hc0]

theorem runAgg_SumInv (fetch : String → String) (total : Nat) :
    ∀ (rest : List String) (idx : Nat) (st : AggState),
      SumInv st.by_author st.by_id → rest.Nodup →
      (∀ h ∈ rest, ∀ p ∈ st.by_id, p.1 ≠ h) →
      ∀ evs st', runAgg fetch total rest idx st = (evs, Except.ok st') →
        SumInv st'.by_author st'.by_id := by
  intro rest
  induction rest with
  | nil =>
    intro idx st hinv _ _ evs st' hrun
    have h2 : Except.ok st = Except.ok st' := congrArg Prod.snd hrun
    have hst : st = st' := Except.ok.inj h2
    exact hst ▸ hinv
  | cons hsh rest ih =>
    intro idx st hinv hnd hdisj evs st' hrun
    cases hget : get_commit_stats (fetch hsh) with
    | error e =>
      rw [runAgg_cons_error fetch total idx st hsh rest e hget] at hrun
      have h2 : (Except.error e : Except UnpackError AggState) = Except.ok st' :=
        congrArg Prod.snd hrun
      exact Except.noConfusion h2
    | ok s =>
      rcases hnext : runAgg fetch total rest (idx + 1)
          ⟨bumpAuthor s.author s.insertions s.deletions st.by_author,
           setById hsh s st.by_id⟩ with ⟨evs2, r2⟩
      rw [runAgg_cons_ok fetch total idx st hsh rest s hget, hnext] at hrun
      have h2 : r2 = Except.ok st' := congrArg Prod.snd hrun
      have hfresh : ∀ p ∈ st.by_id, p.1 ≠ hsh :=
        fun p hp => hdisj hsh (List.mem_cons_self _ _) p hp
      have hinv' := SumInv_step st.by_author st.by_id hsh s hinv hfresh
      have hnd' : rest.Nodup := (List.nodup_cons.mp hnd).2
      have hhsh : hsh ∉ rest := (List.nodup_cons.mp hnd).1
      have hdisj' : ∀ h ∈ rest, ∀ p ∈ setById hsh s st.by_id, p.1 ≠ h := by
        intro h hm p hp
        rw [setById_fresh hsh s st.by_id hfresh] at hp
        rcases List.mem_append.mp hp with hin | hin
        · exact hdisj h (List.mem_cons_of_mem _ hm) p hin
        · have hps : p = (hsh, s) := by simpa using hin
          rw [hps]
          intro hcon
          have hcon' : hsh = h := hcon
          exact hhsh (hcon' ▸ hm)
      exact ih (idx + 1) _ hinv' hnd' hdisj' evs2 st' (h2 ▸ hnext)

/-- C1: on a successful aggregation over distinct commit ids, every
author's `by_author` entry equals the sums/count over exactly the records
in `by_id` with that author, and every stored record's author is a key of
`by_author`. -/
theorem sum_consistency (fetch : String → String) (ids : List String) (hnd : ids.Nodup)
    (evs : List (Nat × Nat)) (st : AggState)
    (hrun : count_lines_in_repo fetch ids = (evs, Except.ok st)) :
    (∀ a t, lookupT a st.by_author = some t →
        t.insertions = tallyIns a st.by_id ∧ t.deletions = tallyDel a st.by_id ∧
        t.commits = tallyCom a st.by_id) ∧
    ∀ p ∈ st.by_id, (lookupT p.2.author st.by_author).isSome = true := by
  rw [count_lines_def] at hrun
  have hinv0 : SumInv [] [] := by
    constructor
    · intro a t h
      simp [lookupT] at h
    · intro a _
      simp [tallyIns, tallyDel, tallyCom, tallyOf]
  have hdisj0 : ∀ h ∈ ids, ∀ p ∈ (⟨[], []⟩ : AggState).by_id, p.1 ≠ h := by
    intro h _ p hp
    simp at hp
  obtain ⟨hsome, hnone⟩ :=
    runAgg_SumInv fetch ids.length ids 1 ⟨[], []⟩ hinv0 hnd hdisj0 evs st hrun
  refine ⟨hsome, ?_⟩
  intro p hp
  cases hl : lookupT p.2.author st.by_author with
  | some t => rfl
  | none =>
    obtain ⟨-, -, hc⟩ := hnone p.2.author hl
    have hpos := tallyCom_pos p.2.author st.by_id p hp rfl
    omega

/-! ### Duplicate ids in the processed sequence -/

/-- C10: when the same commit id appears twice in the processed sequence,
both occurrences are folded into the author's totals (doubled insertions,
deletions, and a commit count of 2) while `by_id` keeps a single record
under that id; hence the commit count in `by_author` exceeds the number of
`by_id` entries. -/
theorem duplicate_id_double_counts (fetch : String → String) (hsh : String) (s : CommitStats)
    (hok : get_commit_stats (fetch hsh) = Except.ok s) :
    count_lines_in_repo fetch [hsh, hsh] =
      ([(1, 2), (2, 2)],
        Except.ok ⟨[(s.author, ⟨s.insertions + s.insertions, s.deletions + s.deletions, 2⟩)],
          [(hsh, s)]⟩) ∧
    ∀ evs st, count_lines_in_repo fetch [hsh, hsh] = (evs, Except.ok st) →
      st.by_id.length < (st.by_author.map fun p => p.2.commits).sum := by
  have hmain : count_lines_in_repo fetch [hsh, hsh] =
      ([(1, 2), (2, 2)],
        Except.ok ⟨[(s.author, ⟨s.insertions + s.insertions, s.deletions + s.deletions, 2⟩)],
          [(hsh, s)]⟩) := by
    simp [count_lines_in_repo, runAgg, hok, bumpAuthor, setById]
  refine ⟨hmain, ?_⟩
  intro evs st hrun
  rw [hmain] at hrun
  have h2 : Except.ok (⟨[(s.author,
        ⟨s.insertions + s.insertions, s.deletions + s.deletions, 2⟩)],
      [(hsh, s)]⟩ : AggState) = Except.ok st := congrArg Prod.snd hrun
  have hst := Except.ok.inj h2
  rw [← hst]
  simp

/-! ### Default start-date resolution -/

theorem splitOnChar_ne_nil (sep : Char) (cs : List Char) : splitOnChar sep cs ≠ [] := by
  cases cs with
  | nil => simp [splitOnChar]
  | cons c cs =>
    simp only [splitOnChar]
    by_cases hc : c = sep
    · simp [hc]
    · simp only [if_neg hc]
      cases splitOnChar sep cs with
      | nil => simp
      | cons g gs => simp

theorem splitOnChar_cons_ne (sep c : Char) (cs : List Char) (hc : c ≠ sep) :
    splitOnChar sep (c :: cs) =
      (c :: (splitOnChar sep cs).headD []) :: (splitOnChar sep cs).tail := by
  simp only [splitOnChar, if_neg hc]
  rcases hr : splitOnChar sep cs with _ | ⟨g, gs⟩
  · exact absurd hr (splitOnChar_ne_nil sep cs)
  · simp

theorem splitOnChar_headD_append (sep : Char) (l cs : List Char) (h : sep ∉ l) :
    (splitOnChar sep (l ++ cs)).headD [] = l ++ (splitOnChar sep cs).headD [] := by
  induction l with
  | nil => simp
  | cons c l ih =>
    have hc : c ≠ sep := by
      intro hh
      subst hh
      exact h (List.mem_cons_self c l)
    have hl : sep ∉ l := fun hm => h (List.mem_cons_of_mem _ hm)
    rw [List.cons_append, splitOnChar_cons_ne sep c (l ++ cs) hc]
    simp only [List.headD_cons, List.cons_append]
    rw [ih hl]

theorem firstLine_gitReverseDateOutput (c : HistCommit) (rest : List HistCommit)
    (hnl : '\n' ∉ c.date.toList) :
    (splitOnChar '\n' (gitReverseDateOutput (c :: rest)).toList).headD [] =
      c.date.toList := by
  have hout : (gitReverseDateOutput (c :: rest)).toList =
      joinLines (c.date.toList :: rest.map fun x => x.date.toList) := rfl
  rw [hout]
  cases hm : rest.map (fun x : HistCommit => x.date.toList) with
  | nil =>
    have h1 := splitOnChar_headD_append '\n' c.date.toList [] hnl
    simpa [joinLines, splitOnChar] using h1
  | cons l2 ls =>
    have hj : joinLines (c.date.toList :: l2 :: ls) =
        c.date.toList ++ '\n' :: joinLines (l2 :: ls) := rfl
    rw [hj, splitOnChar_headD_append '\n' _ _ hnl]
    simp [splitOnChar]

/-- C7: with no explicit start date, the resolved start date is the parsed
date of the repository's chronologically first commit; the fallback query
is oldest-first (`--reverse`) over the full history and carries no
`--author` argument, and the resolution is independent of any requested
author filter, even though the main listing query does append `--author`
when a filter is requested. -/
theorem default_start_date_is_first_commit (authorArg : Option String)
    (c : HistCommit) (rest : List HistCommit) (hnl : '\n' ∉ c.date.toList) :
    resolveStartDate none authorArg (fun _ => gitReverseDateOutput (c :: rest)) =
      parseYMD c.date ∧
    "--author" ∉ startDateGitCmd ∧
    (∀ a1 a2 : Option String,
      resolveStartDate none a1 (fun _ => gitReverseDateOutput (c :: rest)) =
        resolveStartDate none a2 (fun _ => gitReverseDateOutput (c :: rest))) ∧
    ∀ sS eS aF, "--author" ∈ listCommitsCmd sS eS (some aF) := by
  refine ⟨?_, by decide, fun a1 a2 => rfl, ?_⟩
  · show parseYMD ⟨(splitOnChar '\n' (gitReverseDateOutput (c :: rest)).toList).headD []⟩ =
      parseYMD c.date
    rw [firstLine_gitReverseDateOutput c rest hnl]
    rfl
  · intro sS eS aF
    simp [listCommitsCmd]

/-! ### Concrete witnesses -/

/-- A two-commit fetch fixture following the spec's end-to-end scenario. -/
def fetchW : String → String := fun h =>
  if h = "a1" then
    "a1|alice|2024-01-01|fix bug\n 1 file changed, 3 insertions(+), 1 deletion(-)"
  else
    "a2|bob|2024-01-02|add feature\n 2 files changed, 10 insertions(+)"

theorem sum_consistency_witness :
    (lookupT "alice"
        [("alice", (⟨3, 1, 1⟩ : AuthorTotals)), ("bob", ⟨10, 0, 1⟩)]).isSome = true :=
  (sum_consistency fetchW ["a1", "a2"] (by decide) [(1, 2), (2, 2)]
      ⟨[("alice", ⟨3, 1, 1⟩), ("bob", ⟨10, 0, 1⟩)],
       [("a1", ⟨"a1", "alice", "2024-01-01", "fix bug", 3, 1⟩),
        ("a2", ⟨"a2", "bob", "2024-01-02", "add feature", 10, 0⟩)]⟩
      (by decide)).2
    ("a1", ⟨"a1", "alice", "2024-01-01", "fix bug", 3, 1⟩) (by decide)

theorem single_failure_aborts_whole_witness :
    (count_lines_in_repo (fun _ => "nopipe") ["z1"]).2.isOk = false :=
  (single_failure_aborts_whole (fun _ => "nopipe") ["z1"]
      ⟨"z1", by decide, by decide⟩).1

theorem progress_before_each_commit_witness :
    [(1, 1)] = (List.range 1).map fun i => (i + 1, 1) :=
  (progress_before_each_commit (fun _ => "w1|carol|2024-03-03|polish\n 1 insertion(+)")
      ["w1"] [(1, 1)]
      (Except.ok ⟨[("carol", ⟨1, 0, 1⟩)],
        [("w1", ⟨"w1", "carol", "2024-03-03", "polish", 1, 0⟩)]⟩)
      (by decide)).1 rfl

theorem malformed_header_aborts_witness :
    get_commit_stats ((fun _ : String => "x|y") "k1") = Except.error ⟨4, 2⟩ ∧
    (count_lines_in_repo (fun _ : String => "x|y") ["k1"]).2.isOk = false :=
  malformed_header_aborts (fun _ => "x|y") ["k1"] "k1" (by decide) (by decide)

theorem default_start_date_is_first_commit_witness :
    resolveStartDate none (some "alice")
        (fun _ => gitReverseDateOutput [⟨"2020-05-17", "bob"⟩, ⟨"2021-01-01", "alice"⟩]) =
      parseYMD "2020-05-17" :=
  (default_start_date_is_first_commit (some "alice") ⟨"2020-05-17", "bob"⟩
      [⟨"2021-01-01", "alice"⟩] (by decide)).1

theorem deterministic_and_first_seen_order_witness :
    keysOf [("alice", (⟨3, 1, 1⟩ : AuthorTotals)), ("bob", ⟨10, 0, 1⟩)] =
      firstSeen (authorSeq fetchW ["a1", "a2"]) :=
  (deterministic_and_first_seen_order fetchW fetchW ["a1", "a2"] (fun _ _ => rfl)).2
    [(1, 2), (2, 2)]
    ⟨[("alice", ⟨3, 1, 1⟩), ("bob", ⟨10, 0, 1⟩)],
     [("a1", ⟨"a1", "alice", "2024-01-01", "fix bug", 3, 1⟩),
      ("a2", ⟨"a2", "bob", "2024-01-02", "add feature", 10, 0⟩)]⟩
    (by decide)

theorem duplicate_id_double_counts_witness :
    count_lines_in_repo
        (fun _ => "d7|alice|2024-04-04|tweak\n 1 file changed, 3 insertions(+), 1 deletion(-)")
        ["d7", "d7"] =
      ([(1, 2), (2, 2)],
        Except.ok ⟨[("alice", ⟨6, 2, 2⟩)],
          [("d7", ⟨"d7", "alice", "2024-04-04", "tweak", 3, 1⟩)]⟩) :=
  (duplicate_id_double_counts
      (fun _ => "d7|alice|2024-04-04|tweak\n 1 file changed, 3 insertions(+), 1 deletion(-)")
      "d7" ⟨"d7", "alice", "2024-04-04", "tweak", 3, 1⟩ (by decide)).1

end GitLines
